import Mathlib

/-!
Verification of the RAG-Indexer document segmentation and vector index
management subsystem.  The Python sources (`src/utils/chunker.py`,
`src/app.py`, `src/index.py`, `src/query.py`) are shallowly embedded:
Python strings become `List Char`, floats become `ℚ`, the FAISS flat-L2
index becomes an explicit list of vectors, and the only loop whose
termination depends on run-time data (`force_split`) is modelled with
explicit fuel, `none` meaning the loop has not finished within the given
number of iterations.
-/

namespace RagIndexer

/-! ### Chunker: `src/utils/chunker.py` -/

/-- Characters treated as whitespace by Python's `str.strip()`. -/
def isPySpace (c : Char) : Bool :=
  c = ' ' || c = '\t' || c = '\n' || c = '\r' || c = '\x0b' || c = '\x0c'

/-- Python `text.strip()`: remove leading and trailing whitespace. -/
def pyStrip (l : List Char) : List Char :=
  ((l.dropWhile isPySpace).reverse.dropWhile isPySpace).reverse

/-- `count_tokens_approx`: `len(text) // 3`. -/
def count_tokens_approx (l : List Char) : Nat := l.length / 3

/-- Python `text.split(sep)` for a non-empty separator `s0 :: srest`:
scan left to right, cutting at each non-overlapping occurrence of the
separator.  `acc` holds the current piece reversed.  The `fuel` argument
only makes the recursion structural: every step consumes at least one
character, so any `fuel ≥` the length of the text is enough and the
middle (out-of-fuel) branch is never reached (see `pySplitAux_fuel`). -/
def pySplitAux (s0 : Char) (srest : List Char) :
    Nat → List Char → List Char → List (List Char)
  | _, acc, [] => [acc.reverse]
  | 0, acc, l => [acc.reverse ++ l]
  | fuel + 1, acc, c :: rest =>
    if (s0 :: srest).isPrefixOf (c :: rest) then
      acc.reverse :: pySplitAux s0 srest fuel [] (rest.drop srest.length)
    else pySplitAux s0 srest fuel (c :: acc) rest

/-- Python `text.split(sep)` for non-empty `sep = s0 :: srest`. -/
def pySplit (s0 : Char) (srest : List Char) (text : List Char) : List (List Char) :=
  pySplitAux s0 srest text.length [] text

/-- Append `sep` to every piece except the last
(`part + separator if i < len(parts) - 1 else part`). -/
def reattachSep (sep : List Char) : List (List Char) → List (List Char)
  | [] => []
  | [p] => [p]
  | p :: q :: ps => (p ++ sep) :: reattachSep sep (q :: ps)

/-- `split_by_separator`: split, re-attach the separator to every piece
but the last, and drop empty pieces.  An empty separator yields the list
of single characters (`list(text)` in the source). -/
def split_by_separator (text sep : List Char) : List (List Char) :=
  match sep with
  | [] => text.map (fun c => [c])
  | s0 :: srest =>
    (reattachSep (s0 :: srest) (pySplit s0 srest text)).filter (fun p => !p.isEmpty)

/-- `get_overlap`: the last `overlap_tokens * 3` characters of `text`.
When `overlap_tokens = 0` the source computes `text[-0:]`, which in
Python is the whole string, so the whole buffer is returned. -/
def get_overlap (text : List Char) (overlap_tokens : Nat) : List Char :=
  let overlap_chars := overlap_tokens * 3
  if text.length ≤ overlap_chars then text
  else if overlap_chars = 0 then text
  else text.drop (text.length - overlap_chars)

/-- Effective index for Python slicing: negative indices count from the
end, and both ends are clamped into `[0, n]`. -/
def clampIdx (n : Nat) (i : Int) : Nat :=
  if i < 0 then ((n : Int) + i).toNat else min i.toNat n

/-- Python `text[a:b]` with `Int` indices. -/
def pySlice (l : List Char) (a b : Int) : List Char :=
  (l.take (clampIdx l.length b)).drop (clampIdx l.length a)

/-- The `while start < len(text)` loop of `force_split`, with explicit
fuel: `none` means the loop has not terminated within `fuel` iterations.
Each iteration takes `text[start : start+char_size]`, strips it, keeps it
if non-empty, and advances `start` by `char_size - char_overlap`
(computed over `Int`, as in Python, where it can be zero or negative). -/
def force_split_loop (charSize charOverlap : Nat) (text : List Char) :
    Nat → Int → Option (List (List Char))
  | 0, _ => none
  | fuel + 1, start =>
    if start < (text.length : Int) then
      let chunk := pyStrip (pySlice text start (start + (charSize : Int)))
      match force_split_loop charSize charOverlap text fuel
          (start + (charSize : Int) - (charOverlap : Int)) with
      | none => none
      | some rest => some (if chunk = [] then rest else chunk :: rest)
    else some []

/-- `force_split`: raw character windows of `chunk_size*3` characters
advancing by `(chunk_size - chunk_overlap)*3`. -/
def force_split (fuel : Nat) (text : List Char) (chunk_size chunk_overlap : Nat) :
    Option (List (List Char)) :=
  force_split_loop (chunk_size * 3) (chunk_overlap * 3) text fuel 0

/-- `[text.strip()] if text.strip() else []`. -/
def stripChunk (l : List Char) : List (List Char) :=
  if pyStrip l = [] then [] else [pyStrip l]

/-- The accumulation loop of `recursive_chunk` over the pieces produced
by `split_by_separator`.  `rc` is the recursive call on the remaining
separators, applied to oversized pieces. -/
def goParts (cs ov : Nat) (rc : List Char → Option (List (List Char))) :
    List (List Char) → List (List Char) → List Char → Option (List (List Char))
  | [], chunks, cur => some (chunks ++ stripChunk cur)
  | p :: ps, chunks, cur =>
    if count_tokens_approx p > cs then
      match rc p with
      | none => none
      | some subs => goParts cs ov rc ps (chunks ++ stripChunk cur ++ subs) []
    else if count_tokens_approx cur + count_tokens_approx p > cs ∧ pyStrip cur ≠ [] then
      goParts cs ov rc ps (chunks ++ [pyStrip cur]) (get_overlap cur ov ++ p)
    else goParts cs ov rc ps chunks (cur ++ p)

/-- `recursive_chunk`: if the text fits, return it stripped; with no
separators left, force-split; otherwise split on the first separator and
accumulate pieces, recursing on oversized pieces with the remaining
separators. -/
def recursive_chunk (fuel cs ov : Nat) :
    List (List Char) → List Char → Option (List (List Char))
  | seps, text =>
    if count_tokens_approx text ≤ cs then some (stripChunk text)
    else match seps with
      | [] => force_split fuel text cs ov
      | sep :: rest =>
        goParts cs ov (fun p => recursive_chunk fuel cs ov rest p)
          (split_by_separator text sep) [] []

/-- `DEFAULT_SEPARATORS = ["\n\n", "\n", ". ", " "]`. -/
def DEFAULT_SEPARATORS : List (List Char) :=
  ["\n\n".toList, "\n".toList, ". ".toList, " ".toList]

/-! ### Lemmas about `pySplit` and `split_by_separator` -/

/-- What Python's `sep.join(parts)` rebuilds: the pieces interleaved
with the separator. -/
def joinSep (sep : List Char) : List (List Char) → List Char
  | [] => []
  | [p] => p
  | p :: q :: ps => p ++ sep ++ joinSep sep (q :: ps)

lemma pySplitAux_ne_nil (s0 : Char) (srest : List Char) :
    ∀ fuel acc l, pySplitAux s0 srest fuel acc l ≠ [] := by
  intro fuel
  induction fuel with
  | zero => intro acc l; cases l <;> simp [pySplitAux]
  | succ n ih =>
    intro acc l
    cases l with
    | nil => simp [pySplitAux]
    | cons c rest =>
      simp only [pySplitAux]
      split
      · simp
      · exact ih _ _

lemma joinSep_cons (sep a : List Char) {ps : List (List Char)} (h : ps ≠ []) :
    joinSep sep (a :: ps) = a ++ sep ++ joinSep sep ps := by
  cases ps with
  | nil => exact absurd rfl h
  | cons q ps => rfl

lemma joinSep_pySplitAux (s0 : Char) (srest : List Char) :
    ∀ fuel acc l, l.length ≤ fuel →
      joinSep (s0 :: srest) (pySplitAux s0 srest fuel acc l) = acc.reverse ++ l := by
  intro fuel
  induction fuel with
  | zero =>
    intro acc l hl
    have : l = [] := List.length_eq_zero.mp (Nat.le_zero.mp hl)
    subst this
    simp [pySplitAux, joinSep]
  | succ n ih =>
    intro acc l hl
    cases l with
    | nil => simp [pySplitAux, joinSep]
    | cons c rest =>
      simp only [pySplitAux]
      split
      · next hpre =>
        obtain ⟨t, ht⟩ := List.isPrefixOf_iff_prefix.mp hpre
        have ht' : s0 :: (srest ++ t) = c :: rest := by simpa using ht
        have hrest : srest ++ t = rest := (List.cons_eq_cons.mp ht').2
        have hdrop : rest.drop srest.length = t := by
          rw [← hrest]; exact List.drop_left srest t
        have hlen : (rest.drop srest.length).length ≤ n := by
          have h1 : rest.length ≤ n := by
            simp only [List.length_cons] at hl; omega
          have h2 : t.length ≤ rest.length := by
            rw [← hrest]; simp
          rw [hdrop]; omega
        rw [joinSep_cons _ _ (pySplitAux_ne_nil s0 srest n [] _)]
        rw [ih [] _ hlen]
        simp only [List.reverse_nil, List.nil_append]
        rw [hdrop, List.append_assoc, List.cons_append, ht']
      · next hpre =>
        have hlen : rest.length ≤ n := by
          simp only [List.length_cons] at hl; omega
        rw [ih (c :: acc) rest hlen]
        simp

lemma flatten_reattachSep (sep : List Char) :
    ∀ ps : List (List Char), (reattachSep sep ps).flatten = joinSep sep ps := by
  intro ps
  induction ps with
  | nil => rfl
  | cons p ps ih =>
    cases ps with
    | nil => simp [reattachSep, joinSep]
    | cons q ps' =>
      simp only [reattachSep, List.flatten_cons, joinSep]
      rw [ih]

lemma flatten_filter_ne_nil :
    ∀ l : List (List Char), (l.filter (fun p => !p.isEmpty)).flatten = l.flatten := by
  intro l
  induction l with
  | nil => rfl
  | cons a t ih =>
    by_cases ha : a = []
    · subst ha; simpa using ih
    · rw [List.filter_cons_of_pos (by simpa using ha)]
      simp [ih]

lemma reattachSep_cons_ne_nil (sep q : List Char) (ps : List (List Char)) :
    reattachSep sep (q :: ps) ≠ [] := by
  cases ps <;> simp [reattachSep]

lemma reattachSep_dropLast (sep : List Char) (hsep : sep ≠ []) :
    ∀ ps : List (List Char), ∀ p ∈ (reattachSep sep ps).dropLast, sep <:+ p ∧ p ≠ [] := by
  intro ps
  induction ps with
  | nil => simp [reattachSep]
  | cons p ps ih =>
    cases ps with
    | nil => simp [reattachSep]
    | cons q ps' =>
      intro x hx
      simp only [reattachSep] at hx
      rcases List.exists_cons_of_ne_nil (reattachSep_cons_ne_nil sep q ps') with ⟨y, ys, hy⟩
      rw [hy, List.dropLast_cons₂, ← hy] at hx
      rcases List.mem_cons.mp hx with hx | hx
      · subst hx
        exact ⟨List.suffix_append p sep, by
          intro h
          exact hsep (List.append_eq_nil.mp h).2⟩
      · exact ih x hx

lemma filter_ne_nil_eq_self_or_dropLast :
    ∀ l : List (List Char), (∀ p ∈ l.dropLast, p ≠ []) →
      l.filter (fun p => !p.isEmpty) = l
      ∨ l.filter (fun p => !p.isEmpty) = l.dropLast := by
  intro l
  induction l with
  | nil => exact fun _ => Or.inl rfl
  | cons a t ih =>
    intro h
    cases t with
    | nil =>
      by_cases ha : a = []
      · subst ha; right; simp
      · left
        rw [List.filter_cons_of_pos (by simpa using ha)]
        rfl
    | cons b t' =>
      have ha : a ≠ [] := h a (by simp [List.dropLast_cons₂])
      have ht : ∀ p ∈ (b :: t').dropLast, p ≠ [] := by
        intro p hp
        exact h p (by simp [List.dropLast_cons₂, hp])
      rcases ih ht with h1 | h1
      · left
        rw [List.filter_cons_of_pos (by simpa using ha), h1]
      · right
        rw [List.filter_cons_of_pos (by simpa using ha), h1, List.dropLast_cons₂]

/-! ### Claim theorems on the chunker's splitter -/

/-- C10: for every text and non-empty separator, the pieces returned by
`split_by_separator` concatenate back to the original text, every piece
is non-empty, and every piece except possibly the last ends with the
separator. -/
theorem C10_split_by_separator_round_trip (text sep : List Char) (hsep : sep ≠ []) :
    (split_by_separator text sep).flatten = text
    ∧ (∀ p ∈ split_by_separator text sep, p ≠ [])
    ∧ (∀ p ∈ (split_by_separator text sep).dropLast, sep <:+ p) := by
  cases sep with
  | nil => exact absurd rfl hsep
  | cons s0 srest =>
    simp only [split_by_separator]
    refine ⟨?_, ?_, ?_⟩
    · rw [flatten_filter_ne_nil, flatten_reattachSep]
      simpa using joinSep_pySplitAux s0 srest text.length [] text le_rfl
    · intro p hp
      simpa using (List.mem_filter.mp hp).2
    · have hdl := reattachSep_dropLast (s0 :: srest) (by simp)
        (pySplit s0 srest text)
      rcases filter_ne_nil_eq_self_or_dropLast
          (reattachSep (s0 :: srest) (pySplit s0 srest text))
          (fun p hp => (hdl p hp).2) with h1 | h1
      · rw [h1]
        exact fun p hp => (hdl p hp).1
      · rw [h1]
        intro p hp
        have : p ∈ (reattachSep (s0 :: srest) (pySplit s0 srest text)).dropLast :=
          (List.dropLast_sublist _).mem hp
        exact (hdl p this).1

/-- Witness for C10 at a concrete text and separator. -/
theorem C10_witness :
    (" ".toList ≠ ([] : List Char))
    ∧ ((split_by_separator "a b".toList " ".toList).flatten = "a b".toList
      ∧ (∀ p ∈ split_by_separator "a b".toList " ".toList, p ≠ [])
      ∧ (∀ p ∈ (split_by_separator "a b".toList " ".toList).dropLast,
          " ".toList <:+ p)) :=
  ⟨by decide, C10_split_by_separator_round_trip "a b".toList " ".toList (by decide)⟩

/-! ### C2: behaviour when `chunk_overlap ≥ chunk_size` -/

lemma force_split_loop_stuck :
    ∀ fuel : Nat, force_split_loop 3 3 "abcdef".toList fuel 0 = none := by
  intro fuel
  induction fuel with
  | zero => rfl
  | succ n ih =>
    simp only [force_split_loop]
    rw [if_pos (by decide)]
    have h0 : (0 : Int) + ((3 : Nat) : Int) - ((3 : Nat) : Int) = 0 := by norm_num
    rw [h0, ih]

/-- C2: the source never rejects `overlap_tokens ≥ chunk_size_tokens`;
instead the forced character-split loop runs with stride `0` and never
terminates.  At `chunk_size = 1`, `chunk_overlap = 1` on the text
`"abcdef"` the chunker fails to produce a result within any number of
loop iterations. -/
theorem C2_force_split_diverges :
    ∀ fuel : Nat,
      recursive_chunk fuel 1 1 DEFAULT_SEPARATORS "abcdef".toList = none := by
  intro fuel
  have h0 : recursive_chunk fuel 1 1 [] "abcdef".toList = none := by
    simp only [recursive_chunk]
    rw [if_neg (by decide)]
    exact force_split_loop_stuck fuel
  have step : ∀ (sep : List Char) (rest : List (List Char)),
      split_by_separator "abcdef".toList sep = ["abcdef".toList] →
      recursive_chunk fuel 1 1 rest "abcdef".toList = none →
      recursive_chunk fuel 1 1 (sep :: rest) "abcdef".toList = none := by
    intro sep rest hsplit hrec
    simp only [recursive_chunk]
    rw [if_neg (by decide), hsplit]
    simp only [goParts]
    rw [if_pos (by decide)]
    simp only [hrec]
  have h1 := step " ".toList [] (by decide) h0
  have h2 := step ". ".toList [" ".toList] (by decide) h1
  have h3 := step "\n".toList [". ".toList, " ".toList] (by decide) h2
  exact step "\n\n".toList ["\n".toList, ". ".toList, " ".toList] (by decide) h3

/-! ### Token-count and whitespace arithmetic -/

lemma count_tokens_append_le (a b : List Char) :
    count_tokens_approx (a ++ b) ≤ count_tokens_approx a + count_tokens_approx b + 1 := by
  simp only [count_tokens_approx, List.length_append]
  omega

lemma count_tokens_le_of_length_le {a b : List Char} (h : a.length ≤ b.length) :
    count_tokens_approx a ≤ count_tokens_approx b :=
  Nat.div_le_div_right h

lemma pyStrip_length_le (l : List Char) : (pyStrip l).length ≤ l.length := by
  simp only [pyStrip, List.length_reverse]
  calc ((l.dropWhile isPySpace).reverse.dropWhile isPySpace).length
      ≤ (l.dropWhile isPySpace).reverse.length := (List.dropWhile_sublist _).length_le
    _ = (l.dropWhile isPySpace).length := List.length_reverse _
    _ ≤ l.length := (List.dropWhile_sublist _).length_le

lemma count_pyStrip_le (l : List Char) :
    count_tokens_approx (pyStrip l) ≤ count_tokens_approx l :=
  count_tokens_le_of_length_le (pyStrip_length_le l)

lemma pyStrip_eq_nil_forall {l : List Char} (h : pyStrip l = []) :
    ∀ c ∈ l, isPySpace c := by
  simp only [pyStrip] at h
  have h1 : (l.dropWhile isPySpace).reverse.dropWhile isPySpace = [] :=
    List.reverse_eq_nil_iff.mp h
  have h2 : ∀ c ∈ (l.dropWhile isPySpace).reverse, isPySpace c :=
    List.dropWhile_eq_nil_iff.mp h1
  have h3 : ∀ c ∈ l.dropWhile isPySpace, isPySpace c := by
    intro c hc
    exact h2 c (by simpa using hc)
  intro c hc
  rw [← List.takeWhile_append_dropWhile isPySpace l] at hc
  rcases List.mem_append.mp hc with hc | hc
  · exact List.mem_takeWhile_imp hc
  · exact h3 c hc

lemma dropWhile_append_of_forall {p : Char → Bool} :
    ∀ {w l : List Char}, (∀ c ∈ w, p c) →
      List.dropWhile p (w ++ l) = List.dropWhile p l := by
  intro w
  induction w with
  | nil => intro l _; rfl
  | cons c w ih =>
    intro l hw
    simp only [List.cons_append, List.dropWhile_cons]
    rw [if_pos (hw c (by simp))]
    exact ih (fun d hd => hw d (by simp [hd]))

lemma pyStrip_ws_append {w p : List Char} (hw : ∀ c ∈ w, isPySpace c) :
    pyStrip (w ++ p) = pyStrip p := by
  simp only [pyStrip]
  rw [dropWhile_append_of_forall hw]

lemma get_overlap_length_le {cur : List Char} {ov : Nat} (hov : 0 < ov) :
    (get_overlap cur ov).length ≤ 3 * ov := by
  simp only [get_overlap]
  split
  · next h => omega
  · split
    · next h2 => omega
    · next h2 =>
      simp only [List.length_drop]
      omega

/-! ### Bounds on the chunks produced by `force_split` -/

lemma clampIdx_add_le (n : Nat) (a : Int) (k : Nat) :
    clampIdx n (a + k) ≤ clampIdx n a + k := by
  simp only [clampIdx, Nat.min_def]
  split_ifs <;> omega

lemma pySlice_window_length (l : List Char) (a : Int) (k : Nat) :
    (pySlice l a (a + k)).length ≤ k := by
  simp only [pySlice, List.length_drop, List.length_take]
  have h1 := clampIdx_add_le l.length a k
  have h2 : min (clampIdx l.length (a + k)) l.length ≤ clampIdx l.length (a + k) :=
    Nat.min_le_left _ _
  omega

lemma force_split_loop_sound (charSize charOverlap : Nat) (text : List Char) :
    ∀ (fuel : Nat) (start : Int) (out : List (List Char)),
      force_split_loop charSize charOverlap text fuel start = some out →
      ∀ c ∈ out, c ≠ [] ∧ c.length ≤ charSize := by
  intro fuel
  induction fuel with
  | zero =>
    intro start out h
    exact absurd h (by simp [force_split_loop])
  | succ n ih =>
    intro start out h
    simp only [force_split_loop] at h
    split at h
    · cases hrec : force_split_loop charSize charOverlap text n
          (start + (charSize : Int) - (charOverlap : Int)) with
      | none => rw [hrec] at h; exact absurd h (by simp)
      | some rest =>
        rw [hrec] at h
        have hout : out = if pyStrip (pySlice text start (start + (charSize : Int))) = []
            then rest
            else pyStrip (pySlice text start (start + (charSize : Int))) :: rest :=
          (Option.some.inj h).symm
        intro c hc
        rw [hout] at hc
        have hlen : (pyStrip (pySlice text start (start + (charSize : Int)))).length
            ≤ charSize := by
          calc (pyStrip (pySlice text start (start + (charSize : Int)))).length
              ≤ (pySlice text start (start + (charSize : Int))).length :=
                pyStrip_length_le _
            _ ≤ charSize := pySlice_window_length text start charSize
        by_cases hch : pyStrip (pySlice text start (start + (charSize : Int))) = []
        · rw [if_pos hch] at hc
          exact ih _ rest hrec c hc
        · rw [if_neg hch] at hc
          rcases List.mem_cons.mp hc with hc | hc
          · exact hc ▸ ⟨hch, hlen⟩
          · exact ih _ rest hrec c hc
    · have : out = [] := (Option.some.inj h).symm
      subst this
      simp

lemma force_split_sound {cs ov fuel : Nat} {text : List Char} {out : List (List Char)}
    (h : force_split fuel text cs ov = some out) :
    ∀ c ∈ out, c ≠ [] ∧ count_tokens_approx c ≤ cs := by
  intro c hc
  have := force_split_loop_sound (cs * 3) (ov * 3) text fuel 0 out h c hc
  refine ⟨this.1, ?_⟩
  simp only [count_tokens_approx]
  have := this.2
  omega

/-! ### The size bound on chunks (C4) -/

lemma stripChunk_sound {l : List Char} {bound : Nat}
    (h : count_tokens_approx (pyStrip l) ≤ bound) :
    ∀ c ∈ stripChunk l, c ≠ [] ∧ count_tokens_approx c ≤ bound := by
  intro c hc
  simp only [stripChunk] at hc
  split at hc
  · simp at hc
  · next hne => exact (List.mem_singleton.mp hc) ▸ ⟨hne, h⟩

lemma goParts_bound {cs ov : Nat} (hov : 0 < ov)
    {rc : List Char → Option (List (List Char))}
    (hrc : ∀ p out, rc p = some out →
      ∀ c ∈ out, c ≠ [] ∧ count_tokens_approx c ≤ cs + ov) :
    ∀ (parts chunks : List (List Char)) (cur : List Char),
      (∀ c ∈ chunks, c ≠ [] ∧ count_tokens_approx c ≤ cs + ov) →
      count_tokens_approx (pyStrip cur) ≤ cs + ov →
      ∀ out, goParts cs ov rc parts chunks cur = some out →
        ∀ c ∈ out, c ≠ [] ∧ count_tokens_approx c ≤ cs + ov := by
  intro parts
  induction parts with
  | nil =>
    intro chunks cur hchunks hcur out h c hc
    have : out = chunks ++ stripChunk cur := (Option.some.inj h).symm
    subst this
    rcases List.mem_append.mp hc with hc | hc
    · exact hchunks c hc
    · exact stripChunk_sound hcur c hc
  | cons p ps ih =>
    intro chunks cur hchunks hcur out h
    simp only [goParts] at h
    by_cases hbig : count_tokens_approx p > cs
    · rw [if_pos hbig] at h
      cases hr : rc p with
      | none => rw [hr] at h; exact absurd h (by simp)
      | some subs =>
        rw [hr] at h
        refine ih _ _ ?_ (Nat.zero_le _) out h
        intro c hc
        rcases List.mem_append.mp hc with hc | hc
        · rcases List.mem_append.mp hc with hc' | hc'
          · exact hchunks c hc'
          · exact stripChunk_sound hcur c hc'
        · exact hrc p subs hr c hc
    · rw [if_neg hbig] at h
      have hp : count_tokens_approx p ≤ cs := Nat.le_of_not_lt hbig
      by_cases hflush :
          count_tokens_approx cur + count_tokens_approx p > cs ∧ pyStrip cur ≠ []
      · rw [if_pos hflush] at h
        refine ih _ _ ?_ ?_ out h
        · intro c hc
          rcases List.mem_append.mp hc with hc | hc
          · exact hchunks c hc
          · rw [List.mem_singleton.mp hc]
            exact ⟨hflush.2, hcur⟩
        · have h1 : (get_overlap cur ov).length ≤ 3 * ov := get_overlap_length_le hov
          have h2 : count_tokens_approx (get_overlap cur ov ++ p)
              ≤ ov + count_tokens_approx p := by
            simp only [count_tokens_approx, List.length_append] at *
            omega
          have h3 := count_pyStrip_le (get_overlap cur ov ++ p)
          omega
      · rw [if_neg hflush] at h
        by_cases hws : pyStrip cur = []
        · have hrw : pyStrip (cur ++ p) = pyStrip p :=
            pyStrip_ws_append (pyStrip_eq_nil_forall hws)
          refine ih _ _ hchunks ?_ out h
          rw [hrw]
          have := count_pyStrip_le p
          omega
        · have hle : count_tokens_approx cur + count_tokens_approx p ≤ cs := by
            by_contra hgt
            exact hflush ⟨Nat.lt_of_not_le hgt, hws⟩
          refine ih _ _ hchunks ?_ out h
          have h1 := count_tokens_append_le cur p
          have h2 := count_pyStrip_le (cur ++ p)
          omega

lemma recursive_chunk_bound {cs ov : Nat} (hov : 0 < ov) :
    ∀ (seps : List (List Char)) (fuel : Nat) (text : List Char)
      (out : List (List Char)),
      recursive_chunk fuel cs ov seps text = some out →
      ∀ c ∈ out, c ≠ [] ∧ count_tokens_approx c ≤ cs + ov := by
  have base : ∀ (text : List Char) (out : List (List Char)),
      count_tokens_approx text ≤ cs → some (stripChunk text) = some out →
      ∀ c ∈ out, c ≠ [] ∧ count_tokens_approx c ≤ cs + ov := by
    intro text out hfits h c hc
    have : out = stripChunk text := (Option.some.inj h).symm
    subst this
    have hb : count_tokens_approx (pyStrip text) ≤ cs + ov := by
      have := count_pyStrip_le text
      omega
    exact stripChunk_sound hb c hc
  intro seps
  induction seps with
  | nil =>
    intro fuel text out h
    simp only [recursive_chunk] at h
    split at h
    · next hfits => exact base text out hfits h
    · intro c hc
      have := force_split_sound h c hc
      exact ⟨this.1, by omega⟩
  | cons sep rest ih =>
    intro fuel text out h
    simp only [recursive_chunk] at h
    split at h
    · next hfits => exact base text out hfits h
    · exact goParts_bound hov (fun p o hp => ih fuel p o hp)
        (split_by_separator text sep) [] []
        (fun c hc => absurd hc (List.not_mem_nil c)) (Nat.zero_le _) out h

/-! ### Claim theorems on chunk sizes -/

/-- C4 counterexample: with the valid configuration `chunk_size = 2`,
`chunk_overlap = 1` (overlap < chunk size) the chunker returns the
single segment `"abc def gh"` whose approximate token count is
`10 / 3 = 3 > chunk_size`, and whose character length `10` also exceeds
`chunk_size*3 + overlap_tokens*3 = 9`, so the segment satisfies neither
the general bound nor the forced-split exemption. -/
theorem C4_counterexample :
    recursive_chunk 10 2 1 DEFAULT_SEPARATORS "abc def gh".toList =
      some ["abc def gh".toList]
    ∧ 2 < count_tokens_approx "abc def gh".toList
    ∧ 2 * 3 + 1 * 3 < ("abc def gh".toList).length := by decide

/-- C4 amended: for `0 < overlap_tokens < chunk_size_tokens`, every
segment the chunker returns is non-empty and its approximate token count
is at most `chunk_size + overlap_tokens` (the greedy accumulation loop
can overshoot `chunk_size` by up to the overlap seed plus the floor
division slack). -/
theorem C4_chunk_size_bound (cs ov fuel : Nat) (hov : 0 < ov) (hvalid : ov < cs)
    (text : List Char) (out : List (List Char))
    (h : recursive_chunk fuel cs ov DEFAULT_SEPARATORS text = some out) :
    ∀ c ∈ out, c ≠ [] ∧ count_tokens_approx c ≤ cs + ov :=
  recursive_chunk_bound hov DEFAULT_SEPARATORS fuel text out h

/-- Witness for C4 at the concrete run from the counterexample input. -/
theorem C4_witness :
    0 < 1 ∧ 1 < 2
    ∧ (∀ c ∈ ["abc def gh".toList], c ≠ [] ∧ count_tokens_approx c ≤ 2 + 1) :=
  ⟨by decide, by decide,
    C4_chunk_size_bound 2 1 10 (by decide) (by decide) "abc def gh".toList
      ["abc def gh".toList] (by decide)⟩

/-! ### Determinism of the chunker (C9) -/

lemma force_split_loop_mono (charSize charOverlap : Nat) (text : List Char) :
    ∀ (f1 f2 : Nat) (start : Int) (out : List (List Char)),
      force_split_loop charSize charOverlap text f1 start = some out → f1 ≤ f2 →
      force_split_loop charSize charOverlap text f2 start = some out := by
  intro f1
  induction f1 with
  | zero =>
    intro f2 start out h _
    exact absurd h (by simp [force_split_loop])
  | succ n ih =>
    intro f2 start out h hle
    obtain ⟨m, rfl⟩ : ∃ m, f2 = m + 1 := ⟨f2 - 1, by omega⟩
    simp only [force_split_loop] at h ⊢
    by_cases hcond : start < (text.length : Int)
    · rw [if_pos hcond] at h ⊢
      cases hrec : force_split_loop charSize charOverlap text n
          (start + (charSize : Int) - (charOverlap : Int)) with
      | none => rw [hrec] at h; exact absurd h (by simp)
      | some rest =>
        rw [hrec] at h
        rw [ih m _ rest hrec (by omega)]
        exact h
    · rw [if_neg hcond] at h ⊢
      exact h

lemma goParts_congr {cs ov : Nat}
    {rc1 rc2 : List Char → Option (List (List Char))}
    (hrc : ∀ p out, rc1 p = some out → rc2 p = some out) :
    ∀ (parts chunks : List (List Char)) (cur : List Char) (out : List (List Char)),
      goParts cs ov rc1 parts chunks cur = some out →
      goParts cs ov rc2 parts chunks cur = some out := by
  intro parts
  induction parts with
  | nil => intro chunks cur out h; exact h
  | cons p ps ih =>
    intro chunks cur out h
    simp only [goParts] at h ⊢
    by_cases hbig : count_tokens_approx p > cs
    · rw [if_pos hbig] at h ⊢
      cases hr : rc1 p with
      | none => rw [hr] at h; exact absurd h (by simp)
      | some subs =>
        rw [hr] at h
        rw [hrc p subs hr]
        exact ih _ _ _ h
    · rw [if_neg hbig] at h ⊢
      by_cases hflush :
          count_tokens_approx cur + count_tokens_approx p > cs ∧ pyStrip cur ≠ []
      · rw [if_pos hflush] at h ⊢
        exact ih _ _ _ h
      · rw [if_neg hflush] at h ⊢
        exact ih _ _ _ h

lemma recursive_chunk_mono {cs ov : Nat} :
    ∀ (seps : List (List Char)) (f1 f2 : Nat) (text : List Char)
      (out : List (List Char)),
      recursive_chunk f1 cs ov seps text = some out → f1 ≤ f2 →
      recursive_chunk f2 cs ov seps text = some out := by
  intro seps
  induction seps with
  | nil =>
    intro f1 f2 text out h hle
    simp only [recursive_chunk] at h ⊢
    by_cases hfits : count_tokens_approx text ≤ cs
    · rw [if_pos hfits] at h ⊢
      exact h
    · rw [if_neg hfits] at h ⊢
      simp only [force_split] at h ⊢
      exact force_split_loop_mono _ _ _ f1 f2 0 out h hle
  | cons sep rest ih =>
    intro f1 f2 text out h hle
    simp only [recursive_chunk] at h ⊢
    by_cases hfits : count_tokens_approx text ≤ cs
    · rw [if_pos hfits] at h ⊢
      exact h
    · rw [if_neg hfits] at h ⊢
      exact goParts_congr (fun p o hp => ih f1 f2 p o hp hle) _ _ _ _ h

/-- C9: the chunker is deterministic — two completed runs on the same
`(text, chunk_size, overlap)` with the default separators return the
same segment sequence, whatever iteration bounds the two runs were
given. -/
theorem C9_deterministic (cs ov f1 f2 : Nat) (text : List Char)
    (out1 out2 : List (List Char))
    (h1 : recursive_chunk f1 cs ov DEFAULT_SEPARATORS text = some out1)
    (h2 : recursive_chunk f2 cs ov DEFAULT_SEPARATORS text = some out2) :
    out1 = out2 := by
  rcases Nat.le_total f1 f2 with hle | hle
  · have h := recursive_chunk_mono DEFAULT_SEPARATORS f1 f2 text out1 h1 hle
    exact Option.some.inj (h.symm.trans h2)
  · have h := recursive_chunk_mono DEFAULT_SEPARATORS f2 f1 text out2 h2 hle
    exact (Option.some.inj (h.symm.trans h1)).symm

/-- Witness for C9 on a concrete pair of runs. -/
theorem C9_witness :
    recursive_chunk 10 1 0 DEFAULT_SEPARATORS "ab".toList = some ["ab".toList]
    ∧ recursive_chunk 11 1 0 DEFAULT_SEPARATORS "ab".toList = some ["ab".toList]
    ∧ (["ab".toList] : List (List Char)) = ["ab".toList] :=
  ⟨by decide, by decide,
    C9_deterministic 1 0 10 11 "ab".toList _ _ (by decide) (by decide)⟩

/-! ### Vector store: `create_or_update_index` / `load_index` in
`src/app.py` (floats become `ℚ`, the FAISS flat index an explicit list
of rows, the external embedder an abstract function `emb`). -/

/-- One record of the metadata log (`metadata.append({...})` in
`create_or_update_index`). -/
structure MetaEntry where
  id : Nat
  text : String
  source : String
  filename : String
  chunk_index : Nat
deriving DecidableEq

/-- One element of the `sources` argument of `create_or_update_index`. -/
structure SourceInfo where
  source : String
  filename : String
  chunk_index : Nat
deriving DecidableEq

/-- A FAISS `IndexFlatL2`: a fixed dimension and the rows added so far,
in insertion order.  `add` asserts that every row has exactly `d`
entries before appending. -/
structure FaissIndex where
  d : Nat
  vectors : List (List ℚ)
deriving DecidableEq

/-- The module-level store of `app.py`: `faiss_index` (None until the
first insert or load) and the `metadata` list. -/
structure RagState where
  faiss_index : Option FaissIndex
  metadata : List MetaEntry
deriving DecidableEq

/-- The rows held by the similarity index (`[]` when `faiss_index` is
None). -/
def vectorsOf (st : RagState) : List (List ℚ) :=
  match st.faiss_index with
  | none => []
  | some fi => fi.vectors

/-- `faiss_index.ntotal if faiss_index else 0`. -/
def ntotal (st : RagState) : Nat := (vectorsOf st).length

/-- The store as the process starts: no index, empty metadata. -/
def initialState : RagState := ⟨none, []⟩

/-- The exceptions `create_or_update_index` can raise:
`badEmbeddingBatch` models `np.array(embeddings)` failing to produce a
rectangular 2-d array (empty or ragged batch, so `shape[1]` raises);
`dimensionMismatch` models the assertion inside `faiss_index.add` when a
row's length differs from the index dimension. -/
inductive StoreError where
  | badEmbeddingBatch
  | dimensionMismatch
deriving DecidableEq

instance {ε α : Type _} [DecidableEq ε] [DecidableEq α] : DecidableEq (Except ε α) :=
  fun a b =>
  match a, b with
  | .error e1, .error e2 =>
    if h : e1 = e2 then isTrue (by rw [h])
    else isFalse (fun hc => h (Except.error.inj hc))
  | .ok a1, .ok a2 =>
    if h : a1 = a2 then isTrue (by rw [h])
    else isFalse (fun hc => h (Except.ok.inj hc))
  | .error _, .ok _ => isFalse (fun hc => Except.noConfusion hc)
  | .ok _, .error _ => isFalse (fun hc => Except.noConfusion hc)

/-- `create_or_update_index(texts, sources)` with the external embedder
abstracted as `emb`.  Mirrors the source: embed all texts, require a
rectangular non-empty batch, create `IndexFlatL2(dimension)` when the
store has no index yet, append the rows (after FAISS's dimension
assertion), then append one metadata record per `zip(texts, sources)`
element with `id = start_id + i` where `start_id` is the vector count
before the append.  Each error is raised before any state is mutated,
so the error cases carry no state. -/
def create_or_update_index (emb : String → List ℚ) (st : RagState)
    (texts : List String) (sources : List SourceInfo) :
    Except StoreError (RagState × Nat) :=
  let embeddings := texts.map emb
  match embeddings with
  | [] => .error .badEmbeddingBatch
  | e0 :: _ =>
    if ∀ e ∈ embeddings, e.length = e0.length then
      let dimension := e0.length
      let fi := match st.faiss_index with
        | none => { d := dimension, vectors := [] : FaissIndex }
        | some fi => fi
      if fi.d = dimension then
        let start_id := fi.vectors.length
        let newEntries := ((texts.zip sources).enum).map fun ie =>
          { id := start_id + ie.1
            text := ie.2.1
            source := ie.2.2.source
            filename := ie.2.2.filename
            chunk_index := ie.2.2.chunk_index : MetaEntry }
        .ok ({ faiss_index := some { fi with vectors := fi.vectors ++ embeddings },
               metadata := st.metadata ++ newEntries }, texts.length)
      else .error .dimensionMismatch
    else .error .badEmbeddingBatch

/-- The caller's view of the globals after `create_or_update_index`: the
new state on success, the unchanged old state when the call raised. -/
def applyInsert (emb : String → List ℚ) (st : RagState)
    (texts : List String) (sources : List SourceInfo) : RagState :=
  match create_or_update_index emb st texts sources with
  | .ok (st', _) => st'
  | .error _ => st

/-- The positional-alignment invariant of spec §3: the similarity index
and the metadata log have the same length and the `i`-th metadata record
carries `id = i`. -/
def AlignedIds (st : RagState) : Prop :=
  ntotal st = st.metadata.length
  ∧ ∀ i (h : i < st.metadata.length), (st.metadata.get ⟨i, h⟩).id = i

/-- Everything a successful `create_or_update_index` did to the state:
all rows appended to the index, one metadata record per zipped
`(text, source)` pair with ids continuing from the old vector count. -/
lemma create_ok_spec {emb : String → List ℚ} {st : RagState}
    {texts : List String} {sources : List SourceInfo} {st' : RagState} {n : Nat}
    (h : create_or_update_index emb st texts sources = .ok (st', n)) :
    n = texts.length
    ∧ vectorsOf st' = vectorsOf st ++ texts.map emb
    ∧ st'.metadata = st.metadata ++ ((texts.zip sources).enum).map fun ie =>
        { id := ntotal st + ie.1
          text := ie.2.1
          source := ie.2.2.source
          filename := ie.2.2.filename
          chunk_index := ie.2.2.chunk_index : MetaEntry } := by
  cases htexts : texts.map emb with
  | nil =>
    simp only [create_or_update_index, htexts] at h
    exact absurd h (by simp)
  | cons e0 es =>
    simp only [create_or_update_index, htexts] at h
    split at h
    · split at h
      · next hdim =>
        have hfi : (match st.faiss_index with
            | none => { d := e0.length, vectors := [] : FaissIndex }
            | some fi => fi).vectors = vectorsOf st := by
          simp only [vectorsOf]
          cases st.faiss_index <;> rfl
        have hpair := Except.ok.inj h
        cases hpair
        refine ⟨rfl, ?_, ?_⟩
        · show (match st.faiss_index with
              | none => { d := e0.length, vectors := [] : FaissIndex }
              | some fi => fi).vectors ++ e0 :: es = vectorsOf st ++ e0 :: es
          rw [hfi]
        · show st.metadata ++ _ = st.metadata ++ _
          simp only [ntotal, hfi]
      · exact absurd h (by simp)
    · exact absurd h (by simp)

/-- Index arithmetic for the metadata append: if the old log has
canonical ids and the appended records carry ids continuing from
`old.length`, the whole log has canonical ids. -/
lemma ids_of_append (old newE : List MetaEntry)
    (hold : ∀ i (h : i < old.length), (old.get ⟨i, h⟩).id = i)
    (hnew : ∀ j (h : j < newE.length), (newE.get ⟨j, h⟩).id = old.length + j) :
    ∀ i (h : i < (old ++ newE).length), ((old ++ newE).get ⟨i, h⟩).id = i := by
  intro i h
  simp only [List.get_eq_getElem]
  by_cases hlt : i < old.length
  · rw [List.getElem_append_left hlt]
    simpa using hold i hlt
  · have hge : old.length ≤ i := Nat.le_of_not_lt hlt
    have hj : i - old.length < newE.length := by
      simp only [List.length_append] at h; omega
    rw [List.getElem_append_right hge]
    have hid := hnew (i - old.length) hj
    simp only [List.get_eq_getElem] at hid
    rw [hid]
    omega

/-- C1: the alignment invariant holds for the empty store and is
preserved by every successful insert of equally many vectors and
entries; the insert appends exactly `n = len(texts)` vectors. -/
theorem C1_alignment_invariant :
    AlignedIds initialState
    ∧ ∀ (emb : String → List ℚ) (st : RagState) (texts : List String)
        (sources : List SourceInfo) (st' : RagState) (n : Nat),
        AlignedIds st → texts.length = sources.length →
        create_or_update_index emb st texts sources = .ok (st', n) →
        AlignedIds st' ∧ ntotal st' = ntotal st + n ∧ n = texts.length := by
  constructor
  · exact ⟨rfl, fun i h => absurd h (by simp [initialState])⟩
  · intro emb st texts sources st' n hal hlen h
    obtain ⟨hn, hvec, hmeta⟩ := create_ok_spec h
    have hziplen : (texts.zip sources).length = texts.length := by
      simp [List.length_zip, hlen]
    have hnewlen : st'.metadata.length = st.metadata.length + texts.length := by
      rw [hmeta]
      simp [hziplen]
    have hntot : ntotal st' = ntotal st + texts.length := by
      simp only [ntotal, hvec]
      simp
    refine ⟨⟨?_, ?_⟩, by omega⟩
    · rw [hntot, hnewlen, hal.1]
    · have key := ids_of_append st.metadata
        (((texts.zip sources).enum).map fun ie =>
          { id := ntotal st + ie.1
            text := ie.2.1
            source := ie.2.2.source
            filename := ie.2.2.filename
            chunk_index := ie.2.2.chunk_index : MetaEntry })
        hal.2 ?_
      · exact hmeta ▸ key
      · intro j hj
        simp only [List.get_eq_getElem, List.getElem_map, List.getElem_enum]
        have := hal.1
        omega

/-- Witness for C1: a successful concrete insert into the empty store. -/
theorem C1_witness :
    AlignedIds initialState
    ∧ (AlignedIds (⟨some ⟨1, [[0], [1]]⟩,
          [⟨0, "a", "s", "f", 0⟩, ⟨1, "b", "s", "f", 1⟩]⟩ : RagState)
      ∧ ntotal (⟨some ⟨1, [[0], [1]]⟩,
          [⟨0, "a", "s", "f", 0⟩, ⟨1, "b", "s", "f", 1⟩]⟩ : RagState)
          = ntotal initialState + 2
      ∧ 2 = (["a", "b"] : List String).length) := by
  constructor
  · exact C1_alignment_invariant.1
  · refine C1_alignment_invariant.2
      (fun s => if s = "a" then [0] else [1]) initialState ["a", "b"]
      [⟨"s", "f", 0⟩, ⟨"s", "f", 1⟩] _ 2 C1_alignment_invariant.1 (by decide) ?_
    decide

/-! ### Length-mismatched inserts (C5) -/

/-- C5 counterexample: inserting 2 texts with only 1 source entry does
not fail with any error — the call succeeds, appends both vectors to the
index and only one (zipped) metadata record, desynchronizing the two. -/
theorem C5_counterexample :
    create_or_update_index (fun _ => [0]) initialState ["a", "b"] [⟨"s", "f", 0⟩] =
      .ok (⟨some ⟨1, [[0], [0]]⟩, [⟨0, "a", "s", "f", 0⟩]⟩, 2)
    ∧ (["a", "b"] : List String).length ≠ ([⟨"s", "f", 0⟩] : List SourceInfo).length := by
  decide

/-- C5 amended: `create_or_update_index` performs no length validation:
whenever it succeeds it appends all `len(texts)` vectors and exactly
`min(len(texts), len(sources))` metadata records (`zip` truncation). -/
theorem C5_no_length_check (emb : String → List ℚ) (st : RagState)
    (texts : List String) (sources : List SourceInfo) (st' : RagState) (n : Nat)
    (h : create_or_update_index emb st texts sources = .ok (st', n)) :
    n = texts.length
    ∧ ntotal st' = ntotal st + texts.length
    ∧ st'.metadata.length = st.metadata.length + min texts.length sources.length := by
  obtain ⟨hn, hvec, hmeta⟩ := create_ok_spec h
  refine ⟨hn, ?_, ?_⟩
  · simp [ntotal, hvec]
  · rw [hmeta]
    simp [List.length_zip]

/-- Witness for C5 at the mismatched concrete insert. -/
theorem C5_witness :
    create_or_update_index (fun _ => [0, 1]) initialState ["a", "b", "c"]
        [⟨"s", "f", 0⟩, ⟨"s", "f", 1⟩] =
      .ok (⟨some ⟨2, [[0, 1], [0, 1], [0, 1]]⟩,
            [⟨0, "a", "s", "f", 0⟩, ⟨1, "b", "s", "f", 1⟩]⟩, 3)
    ∧ (3 = (["a", "b", "c"] : List String).length
      ∧ ntotal ⟨some ⟨2, [[0, 1], [0, 1], [0, 1]]⟩,
            [⟨0, "a", "s", "f", 0⟩, ⟨1, "b", "s", "f", 1⟩]⟩ = ntotal initialState + 3
      ∧ (⟨some ⟨2, [[0, 1], [0, 1], [0, 1]]⟩,
            [⟨0, "a", "s", "f", 0⟩, ⟨1, "b", "s", "f", 1⟩]⟩ : RagState).metadata.length
          = initialState.metadata.length + min 3 2) :=
  ⟨by decide,
    C5_no_length_check (fun _ => [0, 1]) initialState ["a", "b", "c"]
      [⟨"s", "f", 0⟩, ⟨"s", "f", 1⟩]
      ⟨some ⟨2, [[0, 1], [0, 1], [0, 1]]⟩,
        [⟨0, "a", "s", "f", 0⟩, ⟨1, "b", "s", "f", 1⟩]⟩ 3 (by decide)⟩

/-! ### Dimension mismatch (C6) -/

/-- C6: when the store already has an index of dimension `d` and a new
text embeds into a vector of a different length, the insert raises the
dimension error (FAISS's `add` assertion) and the caller's store is
unchanged. -/
theorem C6_dimension_mismatch (emb : String → List ℚ) (st : RagState)
    (fi : FaissIndex) (t : String) (s : SourceInfo)
    (hfi : st.faiss_index = some fi) (hdim : (emb t).length ≠ fi.d) :
    create_or_update_index emb st [t] [s] = .error .dimensionMismatch
    ∧ applyInsert emb st [t] [s] = st := by
  have hmain : create_or_update_index emb st [t] [s] = .error .dimensionMismatch := by
    simp only [create_or_update_index, List.map, hfi]
    rw [if_pos ?_]
    · rw [if_neg (fun hc => hdim hc.symm)]
    · intro e he
      simp only [List.mem_singleton] at he
      rw [he]
  exact ⟨hmain, by simp [applyInsert, hmain]⟩

/-- The embedder used in the C6 witness: dimension 4 everywhere except
the text `"D"`, which embeds into dimension 5. -/
def embD : String → List ℚ := fun s => if s = "D" then [0, 0, 0, 0, 0] else [0, 0, 0, 0]

/-- A store holding 3 vectors of dimension 4 with entries A, B, C. -/
def st3 : RagState :=
  ⟨some ⟨4, [[0, 0, 0, 0], [0, 0, 0, 0], [0, 0, 0, 0]]⟩,
   [⟨0, "A", "s", "f", 0⟩, ⟨1, "B", "s", "f", 1⟩, ⟨2, "C", "s", "f", 2⟩]⟩

/-- Witness for C6: after 3 vectors of dimension 4, inserting the
dimension-5 vector fails and `total_count` remains 3. -/
theorem C6_witness :
    st3.faiss_index = some ⟨4, [[0, 0, 0, 0], [0, 0, 0, 0], [0, 0, 0, 0]]⟩
    ∧ (embD "D").length ≠ 4
    ∧ (create_or_update_index embD st3 ["D"] [⟨"s", "f", 3⟩] = .error .dimensionMismatch
      ∧ applyInsert embD st3 ["D"] [⟨"s", "f", 3⟩] = st3)
    ∧ ntotal st3 = 3 :=
  ⟨rfl, by decide,
    C6_dimension_mismatch embD st3 _ "D" ⟨"s", "f", 3⟩ rfl (by decide), by decide⟩

/-! ### Loading the persisted pair (C3) -/

/-- `load_index` of `app.py`: when both persisted files exist, the pair
is deserialized and installed as-is with no validation of any kind; when
either file is missing, nothing is loaded (the function returns False;
the standalone `query.py` loader differs only in raising
`FileNotFoundError` instead). -/
def load_index (faissFile : Option FaissIndex)
    (metadataFile : Option (List MetaEntry)) :
    Option (FaissIndex × List MetaEntry) :=
  match faissFile, metadataFile with
  | some fi, some md => some (fi, md)
  | _, _ => none

/-- C3 counterexample: a persisted pair whose lengths disagree (2
vectors, 1 metadata record) is loaded verbatim; no CorruptIndex check
exists on any load path. -/
theorem C3_counterexample :
    load_index (some ⟨1, [[0], [1]]⟩) (some [⟨0, "a", "s", "f", 0⟩]) =
      some (⟨1, [[0], [1]]⟩, [⟨0, "a", "s", "f", 0⟩])
    ∧ ([[0], [1]] : List (List ℚ)).length
        ≠ ([⟨0, "a", "s", "f", 0⟩] : List MetaEntry).length := by
  decide

/-- C3 amended: `load_index` performs no length check — every present
pair loads as-is even when the two lengths disagree, and loading fails
only when one of the files is missing. -/
theorem C3_load_no_length_check (fi : FaissIndex) (md : List MetaEntry)
    (hmismatch : fi.vectors.length ≠ md.length) :
    load_index (some fi) (some md) = some (fi, md)
    ∧ load_index none (some md) = none
    ∧ load_index (some fi) none = none :=
  ⟨rfl, rfl, rfl⟩

/-- Witness for C3 at a concrete mismatched pair. -/
theorem C3_witness :
    (([[0], [1]] : List (List ℚ)).length ≠ ([] : List MetaEntry).length)
    ∧ (load_index (some ⟨1, [[0], [1]]⟩) (some []) = some (⟨1, [[0], [1]]⟩, [])
      ∧ load_index none (some []) = none
      ∧ load_index (some ⟨1, [[0], [1]]⟩) none = none) :=
  ⟨by decide, C3_load_no_length_check ⟨1, [[0], [1]]⟩ [] (by decide)⟩

/-! ### Progress tracker: the `indexing_status` record of `app.py` -/

/-- One step record: `{"status": ..., "message": ...}`. -/
structure StepInfo where
  status : String
  message : String
deriving DecidableEq

/-- The `indexing_status` global of `app.py` with its five steps. -/
structure IndexingStatus where
  active : Bool
  documents : StepInfo
  parsing : StepInfo
  chunking : StepInfo
  embedding : StepInfo
  faiss : StepInfo
  error : Option String
  current_file : String
  total_files : Nat
  processed_files : Nat
deriving DecidableEq

/-- `{"status": "pending", "message": ""}`. -/
def pendingStep : StepInfo := ⟨"pending", ""⟩

/-- `reset_indexing_status`: everything pending, inactive, no error. -/
def reset_indexing_status : IndexingStatus :=
  ⟨false, pendingStep, pendingStep, pendingStep, pendingStep, pendingStep,
   none, "", 0, 0⟩

/-- The start of `/api/upload`: reset, then `active = True` and
`total_files` recorded under the lock. -/
def start_indexing (total : Nat) : IndexingStatus :=
  { reset_indexing_status with active := true, total_files := total }

/-- `step in indexing_status["steps"]`. -/
def isStepName (s : String) : Bool :=
  s = "documents" || s = "parsing" || s = "chunking" || s = "embedding" || s = "faiss"

/-- Replace one step's record, addressed by its dictionary key. -/
def setStep (st : IndexingStatus) (name : String) (info : StepInfo) : IndexingStatus :=
  if name = "documents" then { st with documents := info }
  else if name = "parsing" then { st with parsing := info }
  else if name = "chunking" then { st with chunking := info }
  else if name = "embedding" then { st with embedding := info }
  else if name = "faiss" then { st with faiss := info }
  else st

/-- `set_indexing_error(error_message, failed_step)`: record the
top-level error, flip `active` off, and when the step name is valid mark
that step as an error carrying the message. -/
def set_indexing_error (st : IndexingStatus) (msg : String)
    (failed_step : Option String) : IndexingStatus :=
  let st' := { st with error := some msg, active := false }
  match failed_step with
  | some name => if isStepName name then setStep st' name ⟨"error", msg⟩ else st'
  | none => st'

/-- C8: `start` then `fail("x", "parsing")` yields a snapshot with
`active = false`, the parsing step in status `"error"`, and the
top-level error `"x"` — for any file count recorded at start. -/
theorem C8_fail_after_start (n : Nat) :
    (set_indexing_error (start_indexing n) "x" (some "parsing")).active = false
    ∧ (set_indexing_error (start_indexing n) "x" (some "parsing")).parsing.status
        = "error"
    ∧ (set_indexing_error (start_indexing n) "x" (some "parsing")).error = some "x" :=
  ⟨rfl, rfl, rfl⟩

/-! ### Search: `search_index` in `src/app.py` and `src/query.py`.
FAISS's `IndexFlatL2.search` is the spec's external similarity index: it
returns the `k` nearest rows by squared Euclidean distance, ascending,
ties broken by the lower row index, padding with index `-1` when asked
for more neighbours than the index holds. -/

/-- Squared Euclidean distance over paired coordinates. -/
def sqDist (q v : List ℚ) : ℚ := ((q.zip v).map fun ab => (ab.1 - ab.2) ^ 2).sum

/-- The order FAISS returns results in: ascending distance, ties broken
by the lower insertion index. -/
def searchLe (a b : Nat × ℚ) : Prop := a.2 < b.2 ∨ (a.2 = b.2 ∧ a.1 ≤ b.1)

instance : DecidableRel searchLe := fun a b => by
  unfold searchLe
  infer_instance

instance : IsTotal (Nat × ℚ) searchLe :=
  ⟨fun a b => by
    unfold searchLe
    rcases lt_trichotomy a.2 b.2 with h | h | h
    · exact Or.inl (Or.inl h)
    · rcases Nat.le_total a.1 b.1 with h2 | h2
      · exact Or.inl (Or.inr ⟨h, h2⟩)
      · exact Or.inr (Or.inr ⟨h.symm, h2⟩)
    · exact Or.inr (Or.inl h)⟩

instance : IsTrans (Nat × ℚ) searchLe :=
  ⟨fun a b c hab hbc => by
    unfold searchLe at *
    rcases hab with h1 | ⟨h1, h1'⟩ <;> rcases hbc with h2 | ⟨h2, h2'⟩
    · exact Or.inl (h1.trans h2)
    · exact Or.inl (h2 ▸ h1)
    · exact Or.inl (h1 ▸ h2)
    · exact Or.inr ⟨h1.trans h2, h1'.trans h2'⟩⟩

/-- The distance of the query to every stored row, paired with the row
index — what the flat index computes before selecting the smallest. -/
def faissScores (vectors : List (List ℚ)) (q : List ℚ) : List (Nat × ℚ) :=
  ((vectors.map (sqDist q)).enum)

/-- `faiss_index.search(query, k)` for `k ≤ ntotal`: the `k` smallest
(index, distance) pairs in ascending `searchLe` order. -/
def faissSearch (vectors : List (List ℚ)) (q : List ℚ) (k : Nat) : List (Nat × ℚ) :=
  (List.insertionSort searchLe (faissScores vectors q)).take k

/-- `search_index(query, top_k)` of `app.py`, with the query's external
embedding abstracted to the vector `q`: empty (or absent) index → no
results; otherwise search with `min(top_k, ntotal)` and look each
returned index up in the metadata log (`if idx < len(metadata)`). -/
def search_index (st : RagState) (q : List ℚ) (k : Nat) : List (MetaEntry × ℚ) :=
  if ntotal st = 0 then []
  else (faissSearch (vectorsOf st) q (min k (ntotal st))).filterMap
    fun id_dist => (st.metadata.get? id_dist.1).map fun e => (e, id_dist.2)

/-- The sentinel distance FAISS reports for missing neighbours (the
C library uses infinity; the value plays no role in any property proved
here, only the `-1` index does). -/
def queryPadDist : ℚ := 0

/-- `faiss_index.search(query, k)` for arbitrary `k`: the real results
followed by `(-1, sentinel)` padding up to `k` entries, indices as
Python ints. -/
def faissSearchPadded (vectors : List (List ℚ)) (q : List ℚ) (k : Nat) :
    List (Int × ℚ) :=
  ((faissSearch vectors q (min k vectors.length)).map fun id_dist =>
    ((id_dist.1 : Int), id_dist.2))
  ++ List.replicate (k - vectors.length) (-1, queryPadDist)

/-- Python `metadata[idx]` for an `Int` index: negative indices count
from the end of the list. -/
def pyGetElem (l : List MetaEntry) (i : Int) : Option MetaEntry :=
  if 0 ≤ i then l.get? i.toNat
  else if (-i).toNat ≤ l.length then l.get? (l.length - (-i).toNat)
  else none

/-- `search_index(query, index, metadata, embedder, top_k)` of
`query.py`: `top_k` is passed to FAISS unclamped, and each returned
index passes only the `idx < len(metadata)` guard before the Python
list lookup (which wraps negative indices). -/
def query_search_index (index : FaissIndex) (metadata : List MetaEntry)
    (q : List ℚ) (top_k : Nat) : List (MetaEntry × ℚ) :=
  (faissSearchPadded index.vectors q top_k).filterMap fun id_dist =>
    if id_dist.1 < (metadata.length : Int) then
      (pyGetElem metadata id_dist.1).map fun e => (e, id_dist.2)
    else none

/-- C7 counterexample: `query.py`'s `search_index` on a store of one
vector with `top_k = 2` returns two results, not `min(2, 1) = 1` — the
`-1` FAISS padding index passes the `idx < len(metadata)` guard and
Python's negative indexing duplicates the last metadata entry. -/
theorem C7_counterexample :
    query_search_index ⟨1, [[0]]⟩ [⟨0, "a", "s", "f", 0⟩] [0] 2 =
      [(⟨0, "a", "s", "f", 0⟩, 0), (⟨0, "a", "s", "f", 0⟩, queryPadDist)]
    ∧ min 2 1 = 1 :=
  ⟨by with_unfolding_all rfl, by decide⟩

lemma filterMap_eq_map_of_some {α β : Type _} (f : α → Option β) (g : α → β) :
    ∀ l : List α, (∀ a ∈ l, f a = some (g a)) → l.filterMap f = l.map g := by
  intro l
  induction l with
  | nil => intro _; rfl
  | cons a t ih =>
    intro h
    rw [List.filterMap_cons, h a (by simp), List.map_cons,
      ih (fun b hb => h b (by simp [hb]))]

/-- The default used only to express the metadata lookup as a total
function; every lookup the proof performs is in bounds. -/
def defaultEntry : MetaEntry := ⟨0, "", "", "", 0⟩

/-- C7 amended: for every aligned store (the reachable states of C1),
every query vector and every `k`, `app.py`'s `search_index` returns
exactly `min(k, total_count)` results, ordered by ascending squared
Euclidean distance with ties broken by lower id, each result pairing the
metadata entry of a stored vector with that vector's distance to the
query; the empty store yields the empty list. -/
theorem C7_search_app (st : RagState) (q : List ℚ) (k : Nat)
    (hal : AlignedIds st) :
    (search_index st q k).length = min k (ntotal st)
    ∧ List.Pairwise (fun a b : MetaEntry × ℚ =>
        a.2 < b.2 ∨ (a.2 = b.2 ∧ a.1.id ≤ b.1.id)) (search_index st q k)
    ∧ (∀ r ∈ search_index st q k, ∃ i v,
        st.metadata.get? i = some r.1 ∧ (vectorsOf st).get? i = some v
        ∧ r.2 = sqDist q v)
    ∧ (ntotal st = 0 → search_index st q k = []) := by
  by_cases hz : ntotal st = 0
  · refine ⟨?_, ?_, ?_, ?_⟩ <;> simp [search_index, hz]
  · have hempty : search_index st q k =
        (faissSearch (vectorsOf st) q (min k (ntotal st))).filterMap
          fun id_dist => (st.metadata.get? id_dist.1).map fun e => (e, id_dist.2) := by
      simp only [search_index]
      rw [if_neg hz]
    have hlen_scores : (faissScores (vectorsOf st) q).length = ntotal st := by
      simp [faissScores, ntotal]
    have hsorted : List.Sorted searchLe
        (List.insertionSort searchLe (faissScores (vectorsOf st) q)) :=
      List.sorted_insertionSort searchLe _
    have hperm : List.Perm
        (List.insertionSort searchLe (faissScores (vectorsOf st) q))
        (faissScores (vectorsOf st) q) :=
      List.perm_insertionSort searchLe _
    have hlen_sorted :
        (List.insertionSort searchLe (faissScores (vectorsOf st) q)).length
          = ntotal st := by
      rw [hperm.length_eq, hlen_scores]
    have hmem : ∀ p ∈ List.insertionSort searchLe (faissScores (vectorsOf st) q),
        p.1 < ntotal st ∧ ∃ v, (vectorsOf st).get? p.1 = some v
          ∧ p.2 = sqDist q v := by
      intro p hp
      have hp2 : p ∈ faissScores (vectorsOf st) q := hperm.subset hp
      simp only [faissScores] at hp2
      obtain ⟨i, d⟩ := p
      have hget : ((vectorsOf st).map (sqDist q)).get? i = some d :=
        List.mem_enum_iff_get?.mp hp2
      rw [List.get?_map] at hget
      cases hv : (vectorsOf st).get? i with
      | none => rw [hv] at hget; exact absurd hget (by simp)
      | some v =>
        rw [hv] at hget
        simp only [Option.map_some'] at hget
        have hlt : i < (vectorsOf st).length := by
          by_contra hc
          rw [List.get?_eq_none.mpr (Nat.le_of_not_lt hc)] at hv
          exact Option.noConfusion hv
        refine ⟨hlt, v, rfl, ?_⟩
        exact (Option.some.inj hget).symm
    have htake : faissSearch (vectorsOf st) q (min k (ntotal st)) =
        (List.insertionSort searchLe (faissScores (vectorsOf st) q)).take
          (min k (ntotal st)) := rfl
    have htake_sub : List.Sublist
        ((List.insertionSort searchLe
          (faissScores (vectorsOf st) q)).take (min k (ntotal st)))
        (List.insertionSort searchLe (faissScores (vectorsOf st) q)) :=
      List.take_sublist _ _
    have hmem_take : ∀ p ∈ faissSearch (vectorsOf st) q (min k (ntotal st)),
        p.1 < ntotal st ∧ ∃ v, (vectorsOf st).get? p.1 = some v
          ∧ p.2 = sqDist q v := by
      intro p hp
      rw [htake] at hp
      exact hmem p (htake_sub.subset hp)
    have hmlen : st.metadata.length = ntotal st := hal.1.symm
    have hget_meta : ∀ p ∈ faissSearch (vectorsOf st) q (min k (ntotal st)),
        st.metadata.get? p.1 = some (st.metadata.getD p.1 defaultEntry)
        ∧ (st.metadata.getD p.1 defaultEntry).id = p.1 := by
      intro p hp
      have hlt : p.1 < st.metadata.length := by
        rw [hmlen]; exact (hmem_take p hp).1
      have hsome : st.metadata.get? p.1 = some (st.metadata.get ⟨p.1, hlt⟩) :=
        List.get?_eq_get hlt
      constructor
      · rw [hsome]
        congr 1
        simp only [List.getD, hsome]
        rfl
      · have hD : st.metadata.getD p.1 defaultEntry = st.metadata.get ⟨p.1, hlt⟩ := by
          simp only [List.getD, hsome]
          rfl
        rw [hD]
        exact hal.2 p.1 hlt
    have hfm : search_index st q k =
        (faissSearch (vectorsOf st) q (min k (ntotal st))).map
          fun p => (st.metadata.getD p.1 defaultEntry, p.2) := by
      rw [hempty]
      refine filterMap_eq_map_of_some _ _ _ ?_
      intro p hp
      rw [(hget_meta p hp).1]
      rfl
    have hlen_take :
        (faissSearch (vectorsOf st) q (min k (ntotal st))).length
          = min k (ntotal st) := by
      rw [htake, List.length_take, hlen_sorted]
      omega
    refine ⟨?_, ?_, ?_, fun h => absurd h hz⟩
    · rw [hfm, List.length_map, hlen_take]
    · rw [hfm]
      rw [List.pairwise_map]
      have hpw : List.Pairwise searchLe
          (faissSearch (vectorsOf st) q (min k (ntotal st))) := by
        rw [htake]
        exact hsorted.sublist htake_sub
      refine hpw.imp_of_mem ?_
      intro a b ha hb hab
      have hia := (hget_meta a ha).2
      have hib := (hget_meta b hb).2
      rcases hab with h1 | ⟨h1, h2⟩
      · exact Or.inl h1
      · exact Or.inr ⟨h1, by rw [hia, hib]; exact h2⟩
    · rw [hfm]
      intro r hr
      obtain ⟨p, hp, hpr⟩ := List.mem_map.mp hr
      obtain ⟨hlt, v, hv, hd⟩ := hmem_take p hp
      refine ⟨p.1, v, ?_, hv, ?_⟩
      · rw [(hget_meta p hp).1, ← hpr]
      · rw [← hpr]
        exact hd

/-- Witness for C7 on a concrete aligned two-vector store. -/
theorem C7_witness :
    AlignedIds ⟨some ⟨1, [[0], [3]]⟩, [⟨0, "a", "s", "f", 0⟩, ⟨1, "b", "s", "f", 1⟩]⟩
    ∧ ((search_index ⟨some ⟨1, [[0], [3]]⟩,
          [⟨0, "a", "s", "f", 0⟩, ⟨1, "b", "s", "f", 1⟩]⟩ [1] 5).length
        = min 5 (ntotal ⟨some ⟨1, [[0], [3]]⟩,
          [⟨0, "a", "s", "f", 0⟩, ⟨1, "b", "s", "f", 1⟩]⟩)
      ∧ List.Pairwise (fun a b : MetaEntry × ℚ =>
          a.2 < b.2 ∨ (a.2 = b.2 ∧ a.1.id ≤ b.1.id))
          (search_index ⟨some ⟨1, [[0], [3]]⟩,
            [⟨0, "a", "s", "f", 0⟩, ⟨1, "b", "s", "f", 1⟩]⟩ [1] 5)
      ∧ (∀ r ∈ search_index ⟨some ⟨1, [[0], [3]]⟩,
            [⟨0, "a", "s", "f", 0⟩, ⟨1, "b", "s", "f", 1⟩]⟩ [1] 5, ∃ i v,
          ([⟨0, "a", "s", "f", 0⟩, ⟨1, "b", "s", "f", 1⟩] :
            List MetaEntry).get? i = some r.1
          ∧ (vectorsOf ⟨some ⟨1, [[0], [3]]⟩,
              [⟨0, "a", "s", "f", 0⟩, ⟨1, "b", "s", "f", 1⟩]⟩).get? i = some v
          ∧ r.2 = sqDist [1] v)
      ∧ (ntotal ⟨some ⟨1, [[0], [3]]⟩,
          [⟨0, "a", "s", "f", 0⟩, ⟨1, "b", "s", "f", 1⟩]⟩ = 0 →
        search_index ⟨some ⟨1, [[0], [3]]⟩,
          [⟨0, "a", "s", "f", 0⟩, ⟨1, "b", "s", "f", 1⟩]⟩ [1] 5 = [])) :=
  ⟨⟨by decide, by decide⟩,
    C7_search_app ⟨some ⟨1, [[0], [3]]⟩,
      [⟨0, "a", "s", "f", 0⟩, ⟨1, "b", "s", "f", 1⟩]⟩ [1] 5 ⟨by decide, by decide⟩⟩

end RagIndexer
